import Mathlib

/-!
# Mandelbrot renderer: schedulers over a shared pixel buffer

A shallow embedding of `mandelbrot/mandelbrot.go`.

* The pixel buffer `img` is passed explicitly; every store into `m.m[x][y]` goes
  through `store`, which faults when the index is outside the buffer (Go panics
  with an index-out-of-range error there).
* Go `int` values (pixel coordinates, block sizes) are natural numbers: they are
  never negative in the program and stay far below `2^63`.  The iteration count
  and `calcval` are integers, and the conversion `uint8(x)` is `x % 2^8`.
* The floating-point part of `fillPixel` (the mapping of a pixel to a point `c`
  of the plane and the iteration `mandel(c)`) is a parameter
  `mandel : Nat → Nat → Int`: the value `mandel(c)` for the point that pixel
  `(i, j)` is mapped to.  Canvas size and viewport are fixed during a render.
* Goroutines are not modelled as such.  A pool of workers draining a job channel
  is `pool`: the jobs are processed one after the other in the order chosen by
  a schedule `sched`, which rearranges the list of jobs sent.  The receive loop
  of the caller is `join`: with fewer results than it awaits the caller blocks
  forever (`Outcome.hangs`).  A pool has at least as many workers as jobs
  wherever the caller awaits all of them, so a worker that blocks does not keep
  the other jobs from being processed, and `hangs` still carries the canvas
  left by all the stores.  Where the caller awaits fewer results than it sent
  jobs the outcome is `Outcome.unjoined`.
* The recursion `worker → devide → worker` carries a fuel argument; running out
  of it is the fault `outOfFuel`, and the theorems show that it never happens
  with the fuel that `nWorkersFillImg` supplies.
-/

namespace Mandelbrot

/-! ## Data model -/

/-- Go's `color.RGBA`: four 8-bit channels. -/
structure RGBA where
  R : Nat
  G : Nat
  B : Nat
  A : Nat
deriving DecidableEq, Repr

/-- The job sent over the channels: `struct{ i, j int }`. -/
structure Task where
  i : Nat
  j : Nat
deriving DecidableEq, Repr

/-- The canvas `img`: `m.m` has `w` rows of `h` cells; the function `m` is read
only at indices `x < w`, `y < h`. -/
structure img where
  h : Nat
  w : Nat
  m : Nat → Nat → RGBA

/-- What can stop a run of the model. -/
inductive Fault where
  | indexOutOfRange
  | divideByZero
  | outOfFuel
deriving DecidableEq, Repr

/-- How a call of `worker`, `devide` or `nWorkersFillImg` ends.
`returns m`: the call returns and leaves the canvas `m`.
`hangs m`: the call blocks forever on a channel; the stores made by it and by
the workers below it left the canvas `m`.
`unjoined`: the call awaits fewer results than jobs were sent; it goes on, or
blocks, without having joined every job, and the canvas it hands on is not
determined.
`faults e`: the call is stopped by the fault `e`. -/
inductive Outcome where
  | returns (m : img)
  | hangs (m : img)
  | unjoined
  | faults (e : Fault)

/-- The way a call ends, without the canvas. -/
inductive Kind where
  | returned
  | hung
  | unjoined
  | faulted (e : Fault)
deriving DecidableEq, Repr

/-- The buffer allocated by `Create`: every cell is the zero value of
`color.RGBA`, in particular transparent (`A = 0`). -/
def blank (w h : Nat) : img := ⟨h, w, fun _ _ => ⟨0, 0, 0, 0⟩⟩

/-- The store `m.m[x][y] = c`, which panics outside the buffer. -/
def store (m : img) (x y : Nat) (c : RGBA) : Except Fault img :=
  if x < m.w ∧ y < m.h then
    .ok ⟨m.h, m.w, fun a b => if a = x ∧ b = y then c else m.m a b⟩
  else
    .error .indexOutOfRange

/-- Runs `f` on every element of a list in turn, threading the canvas and
stopping at the first fault. -/
def forEach {α : Type} (f : img → α → Except Fault img) : List α → img → Except Fault img
  | [], m => .ok m
  | a :: as, m =>
    match f m a with
    | .ok m1 => forEach f as m1
    | .error e => .error e

/-- The values of `k` in the iterations of `for k := start; k < stop; k += step`,
for at most `fuel` iterations. -/
def forLoop : Nat → Nat → Nat → Nat → List Nat
  | 0, _, _, _ => []
  | fuel + 1, k, stop, step =>
    if k < stop then k :: forLoop fuel (k + step) stop step else []

/-- The loop `for k := start; k < stop; k += step`.  With `step ≥ 1` it makes at
most `stop - start` iterations.  (With `step = 0` and `start < stop` the Go loop
does not end; the program never reaches that case: `nWorkersFillImg` stops on
the division by `BSX * BSY` first, and `devide` loops up to `start + 0 * 2`.) -/
def goFor (start stop step : Nat) : List Nat :=
  forLoop (stop - start) start stop step

/-! ## Colour -/

/-- The conversion `uint8(x)` of a Go integer: the low eight bits. -/
def uint8 (x : Int) : Nat := (x % 256).toNat

/-- The method `color.Gray{Y}.RGBA()` of the standard library:
`y := uint32(Y); y |= y << 8; return y, y, y, 0xffff`. -/
def grayRGBA (Y : Nat) : Nat × Nat × Nat × Nat :=
  let y := Y ||| (Y <<< 8)
  (y, y, y, 0xffff)

/-- The colour that `paint(c, calcval)` stores into `*c`. -/
def paint (calcval : Int) : RGBA :=
  let px_color := uint8 (255 - calcval)
  let rgba := grayRGBA px_color
  ⟨uint8 rgba.1, uint8 rgba.2.1, uint8 rgba.2.2.1, 255⟩

/-- The function `fillPixel(m, i, j)`: computes `calcval = int(mandel(c) * 15)`,
paints cell `(i, j)` and returns `calcval`. -/
def fillPixel (mandel : Nat → Nat → Int) (m : img) (i j : Nat) : Except Fault (img × Int) :=
  let calcval := mandel i j * 15
  match store m i j (paint calcval) with
  | .ok m1 => .ok (m1, calcval)
  | .error e => .error e

/-- A call of `fillPixel` whose result is dropped. -/
def fillPixel_ (mandel : Nat → Nat → Int) (m : img) (ij : Nat × Nat) : Except Fault img :=
  match fillPixel mandel m ij.1 ij.2 with
  | .ok r => .ok r.1
  | .error e => .error e

/-! ## The exact schedulers -/

/-- The row-major scan `seqFillImg`. -/
def seqFillImg (mandel : Nat → Nat → Int) (m : img) : Except Fault img :=
  forEach (fun m1 i => forEach (fun m2 j => fillPixel_ mandel m2 (i, j)) (goFor 0 m.h 1) m1)
    (goFor 0 m.w 1) m

/-- The units of work of `oneToOneFillImg`, one goroutine per cell, in the order
in which they are started. -/
def pixelUnits (m : img) : List (Nat × Nat) :=
  (List.range m.w).flatMap (fun i => (List.range m.h).map (fun j => (i, j)))

/-- The scheduler `oneToOneFillImg`: the goroutines run in the order `sched`
gives them. -/
def oneToOneFillImg (mandel : Nat → Nat → Int)
    (sched : List (Nat × Nat) → List (Nat × Nat)) (m : img) : Except Fault img :=
  forEach (fillPixel_ mandel) (sched (pixelUnits m)) m

/-- The units of work of `onePerRowFillImg`, one goroutine per index `i` of
`m.m`. -/
def rowUnits (m : img) : List Nat := List.range m.w

/-- The scheduler `onePerRowFillImg`: each goroutine fills `m.m[i]` from left to
right; the goroutines run in the order `sched` gives them. -/
def onePerRowFillImg (mandel : Nat → Nat → Int)
    (sched : List Nat → List Nat) (m : img) : Except Fault img :=
  forEach (fun m1 i => forEach (fun m2 j => fillPixel_ mandel m2 (i, j)) (List.range m.h) m1)
    (sched (rowUnits m)) m

/-! ## The adaptive block scheduler -/

/-- The clipped limit computed in `checkBlock` and `worker`:
`limit := o + size; if o + size >= bound { limit = bound - 1 }`. -/
def limit (o size bound : Nat) : Nat :=
  if o + size ≥ bound then bound - 1 else o + size

/-- The comparison `first == second && first == third && first == fourth` of
`checkBlock`, on the values that `fillPixel` returns at the four corners. -/
def cornersAgree (mandel : Nat → Nat → Int) (t : Task) (m : img) (w h : Nat) : Bool :=
  let limit_w := limit t.i w m.w
  let limit_h := limit t.j h m.h
  let first := mandel t.i t.j * 15
  let second := mandel limit_w limit_h * 15
  let third := mandel t.i limit_h * 15
  let fourth := mandel limit_w t.j * 15
  first == second && first == third && first == fourth

/-- The store `paint(&m.m[k][l], first)` of the bulk fill. -/
def paintCell (first : Int) (m : img) (kl : Nat × Nat) : Except Fault img :=
  store m kl.1 kl.2 (paint first)

/-- The function `checkBlock(t, m, w, h)`: samples the four corners and, when they
agree, paints `[t.i, limit_w) × [t.j, limit_h)` with the first value and
returns `false`; otherwise returns `true`. -/
def checkBlock (mandel : Nat → Nat → Int) (t : Task) (m : img) (w h : Nat) :
    Except Fault (img × Bool) :=
  let limit_w := limit t.i w m.w
  let limit_h := limit t.j h m.h
  match fillPixel mandel m t.i t.j with
  | .error e => .error e
  | .ok (m1, first) =>
  match fillPixel mandel m1 limit_w limit_h with
  | .error e => .error e
  | .ok (m2, second) =>
  match fillPixel mandel m2 t.i limit_h with
  | .error e => .error e
  | .ok (m3, third) =>
  match fillPixel mandel m3 limit_w t.j with
  | .error e => .error e
  | .ok (m4, fourth) =>
    if first == second && first == third && first == fourth then
      match forEach (fun m5 k => forEach (fun m6 l => paintCell first m6 (k, l))
              (goFor t.j limit_h 1) m5) (goFor t.i limit_w 1) m4 with
      | .ok m7 => .ok (m7, false)
      | .error e => .error e
    else
      .ok (m4, true)

/-- The function `perPixel(m, start_x, end_x, start_y, end_y)`. -/
def perPixel (mandel : Nat → Nat → Int) (m : img) (start_x end_x start_y end_y : Nat) :
    Except Fault img :=
  forEach (fun m1 i => forEach (fun m2 j => fillPixel_ mandel m2 (i, j))
    (goFor start_y end_y 1) m1) (goFor start_x end_x 1) m

/-- The jobs that `devide` sends to `subjobs`, in sending order; `w` and `h` are
the halved sizes. -/
def subjobs (m : img) (w h : Nat) (t : Task) : List Task :=
  (goFor t.i (t.i + w * 2) w).flatMap (fun k =>
    ((goFor t.j (t.j + h * 2) h).filter (fun l => k < m.w && l < m.h)).map (fun l => ⟨k, l⟩))

/-- A pool of workers running `f` on each job sent to it, the jobs taken in list
order.  A worker that blocks forever leaves the remaining jobs to the other
workers of the pool. -/
def pool (f : img → Task → Outcome) : List Task → img → Outcome
  | [], m => .returns m
  | t :: ts, m =>
    match f m t with
    | .returns m1 => pool f ts m1
    | .hangs m1 =>
      match pool f ts m1 with
      | .returns m2 => .hangs m2
      | o => o
    | o => o

/-- The receive loop `for i := 0; i < awaited; i++ { <-results }` that follows a
pool to which `sent` jobs were sent.  Every job that returns sends one result:
with fewer results than awaited the loop blocks forever. -/
def join (awaited sent : Nat) : Outcome → Outcome
  | .returns m =>
    if sent < awaited then .hangs m else if awaited < sent then .unjoined else .returns m
  | .hangs m => if awaited < sent then .unjoined else .hangs m
  | o => o

/-- The number of results `devide` receives from `subresults` before it
returns: `for i := 0; i < 4; i++ { <-subresults }`. -/
def devideAwaited : Nat := 4

/-- The function `devide(id, m, w, h, t)`: halves the sizes, starts workers of the
halved sizes (`spawn`), sends them the sub-blocks that start inside the canvas
and receives `devideAwaited` results. -/
def devide (spawn : Nat → Nat → img → Task → Outcome)
    (sched : List Task → List Task) (m : img) (w h : Nat) (t : Task) : Outcome :=
  let h1 := h / 2
  let w1 := w / 2
  join devideAwaited (subjobs m w1 h1 t).length
    (pool (spawn w1 h1) (sched (subjobs m w1 h1 t)) m)

/-- The body of the loop `for t := range jobs` of `worker(id, m, w, h, jobs,
results)`, for the job `t`; returning stands for `results <- true`. -/
def worker (mandel : Nat → Nat → Int) (sched : List Task → List Task) :
    Nat → Nat → Nat → img → Task → Outcome
  | 0, _, _, _, _ => .faults .outOfFuel
  | fuel + 1, w, h, m, t =>
    match checkBlock mandel t m w h with
    | .error e => .faults e
    | .ok (m1, divide) =>
      if divide && (h > 4 || w > 4) then
        devide (worker mandel sched fuel) sched m1 w h t
      else if h < 4 || w < 4 then
        match perPixel mandel m1 t.i (limit t.i w m1.w) t.j (limit t.j h m1.h) with
        | .ok m2 => .returns m2
        | .error e => .faults e
      else
        .returns m1

/-- The value `blocks` of `nWorkersFillImg`: capacity of `jobs` and `results`,
number of workers started and number of results awaited (for `BSX * BSY ≠ 0`;
the Go division panics otherwise). -/
def blocks (m : img) (BSX BSY : Nat) : Nat := (m.w * m.h) / (BSX * BSY)

/-- The jobs that `nWorkersFillImg` sends to `jobs`, in sending order. -/
def initialJobs (m : img) (BSX BSY : Nat) : List Task :=
  (goFor 0 m.w BSX).flatMap (fun i => (goFor 0 m.h BSY).map (fun j => ⟨i, j⟩))

/-- The scheduler `nWorkersFillImg`: `blocks` is the capacity of the job queue,
the number of workers started and the number of results received.  With
`blocks = 0` the first send finds an unbuffered channel without a receiver and
blocks forever, before any store. -/
def nWorkersFillImg (mandel : Nat → Nat → Int) (sched : List Task → List Task)
    (BSX BSY : Nat) (m : img) : Outcome :=
  if BSX * BSY = 0 then
    .faults .divideByZero
  else if blocks m BSX BSY = 0 ∧ 0 < (initialJobs m BSX BSY).length then
    .hangs m
  else
    join (blocks m BSX BSY) (initialJobs m BSX BSY).length
      (pool (worker mandel sched (BSX + BSY + 1) BSX BSY) (sched (initialJobs m BSX BSY)) m)

/-- The number of nested subdivisions below the job `t` of size `w × h`: 0 when
`worker` does not call `devide` for it, and otherwise one more than the largest
such number among the sub-blocks that `devide` sends.  It follows the branch
condition of `worker` and is a measure of the recursion, not a function of the
program. -/
def depth (mandel : Nat → Nat → Int) : Nat → img → Nat → Nat → Task → Nat
  | 0, _, _, _, _ => 0
  | fuel + 1, m, w, h, t =>
    if !cornersAgree mandel t m w h && (h > 4 || w > 4) then
      1 + ((subjobs m (w / 2) (h / 2) t).map (depth mandel fuel m (w / 2) (h / 2))).foldr max 0
    else 0

/-! ## Observations and concrete inputs -/

/-- The colour of cell `(x, y)` of the canvas that a call hands on when it
returns. -/
def cellAfter (r : Outcome) (x y : Nat) : Option RGBA :=
  match r with
  | .returns m => some (m.m x y)
  | _ => none

/-- The way a call ends. -/
def kindOf (r : Outcome) : Kind :=
  match r with
  | .returns _ => .returned
  | .hangs _ => .hung
  | .unjoined => .unjoined
  | .faults e => .faulted e

/-- The canvas in which every cell `(i, j)` inside the bounds holds the colour
that `fillPixel(m, i, j)` stores. -/
def exactCanvas (mandel : Nat → Nat → Int) (m : img) : img :=
  ⟨m.h, m.w, fun x y => if x < m.w ∧ y < m.h then paint (mandel x y * 15) else m.m x y⟩

/-- An evaluator that returns the same count everywhere. -/
def constMandel (_x _y : Nat) : Int := 0

/-- An evaluator whose count is the column index. -/
def columnMandel (x _y : Nat) : Int := x

/-- An evaluator with count 2 left of column 32 and count 0 from column 32 on,
except for count 1 at pixel (32, 16). -/
def edgeMandel (x y : Nat) : Int :=
  if x = 32 ∧ y = 16 then 1 else if x < 32 then 2 else 0

/-! ## Lemmas -/

theorem uint8_lt (x : Int) : uint8 x < 256 := by
  unfold uint8
  have h1 : 0 ≤ x % 256 := Int.emod_nonneg x (by decide)
  have h2 : x % 256 < 256 := Int.emod_lt_of_pos x (by decide)
  omega

theorem gray_low_byte (y : Nat) (hy : y < 256) : uint8 ((y ||| (y <<< 8) : Nat) : Int) = y := by
  unfold uint8
  have h : y ||| (y <<< 8) = 2 ^ 8 * y + y := by
    rw [Nat.shiftLeft_eq, Nat.or_comm, Nat.mul_comm y (2 ^ 8)]
    exact (Nat.mul_add_lt_is_or (by omega) y).symm
  rw [h]
  omega

theorem paint_eq (calcval : Int) :
    paint calcval = ⟨uint8 (255 - calcval), uint8 (255 - calcval), uint8 (255 - calcval), 255⟩ := by
  simp only [paint, grayRGBA, gray_low_byte _ (uint8_lt _)]

theorem store_ok (m : img) (x y : Nat) (c : RGBA) (hx : x < m.w) (hy : y < m.h) :
    store m x y c = .ok ⟨m.h, m.w, fun a b => if a = x ∧ b = y then c else m.m a b⟩ := by
  simp [store, hx, hy]

theorem fillPixel_ok (mandel : Nat → Nat → Int) (m : img) (i j : Nat) (hi : i < m.w) (hj : j < m.h) :
    fillPixel mandel m i j =
      .ok (⟨m.h, m.w, fun a b => if a = i ∧ b = j then paint (mandel i j * 15) else m.m a b⟩,
        mandel i j * 15) := by
  simp [fillPixel, store_ok m i j _ hi hj]

theorem fillPixel__ok (mandel : Nat → Nat → Int) (m : img) (p : Nat × Nat) (hi : p.1 < m.w) (hj : p.2 < m.h) :
    fillPixel_ mandel m p =
      .ok ⟨m.h, m.w, fun a b => if a = p.1 ∧ b = p.2 then paint (mandel p.1 p.2 * 15) else m.m a b⟩ := by
  simp [fillPixel_, fillPixel_ok mandel m p.1 p.2 hi hj]

theorem forEach_flatMap {α β : Type} (f : img → β → Except Fault img) (g : α → List β)
    (l : List α) (m : img) :
    forEach f (l.flatMap g) m = forEach (fun m1 a => forEach f (g a) m1) l m := by
  induction l generalizing m with
  | nil => rfl
  | cons a as ih =>
    simp only [List.flatMap_cons, forEach]
    have happ : ∀ (l1 l2 : List β) (m0 : img), forEach f (l1 ++ l2) m0 =
        match forEach f l1 m0 with
        | .ok m1 => forEach f l2 m1
        | .error e => .error e := by
      intro l1
      induction l1 with
      | nil => intro l2 m0; rfl
      | cons b bs ihb =>
        intro l2 m0
        simp only [List.cons_append, forEach]
        cases f m0 b with
        | error e => rfl
        | ok m1 => exact ihb l2 m1
    rw [happ]
    cases forEach f (g a) m with
    | error e => rfl
    | ok m1 => exact ih m1

theorem forEach_map {α β : Type} (f : img → β → Except Fault img) (g : α → β)
    (l : List α) (m : img) :
    forEach f (l.map g) m = forEach (fun m1 a => f m1 (g a)) l m := by
  induction l generalizing m with
  | nil => rfl
  | cons a as ih =>
    simp only [List.map_cons, forEach]
    cases f m (g a) with
    | error e => rfl
    | ok m1 => exact ih m1

/-- An invariant of the canvas that every step keeps is kept by the loop, which
then ends normally. -/
theorem forEach_inv {α : Type} (P : img → Prop) (f : img → α → Except Fault img) (l : List α)
    (hf : ∀ m a, a ∈ l → P m → ∃ m1, f m a = .ok m1 ∧ P m1) (m : img) (hm : P m) :
    ∃ m1, forEach f l m = .ok m1 ∧ P m1 := by
  induction l generalizing m with
  | nil => exact ⟨m, rfl, hm⟩
  | cons a as ih =>
    obtain ⟨m1, h1, hP⟩ := hf m a (List.mem_cons_self a as) hm
    simp only [forEach, h1]
    exact ih (fun m2 b hb hp => hf m2 b (List.mem_cons_of_mem a hb) hp) m1 hP

theorem mem_forLoop (fuel k stop step x : Nat) (hx : x ∈ forLoop fuel k stop step) :
    k ≤ x ∧ x < stop := by
  induction fuel generalizing k with
  | zero => simp [forLoop] at hx
  | succ n ih =>
    unfold forLoop at hx
    split at hx
    · rcases List.mem_cons.1 hx with h | h
      · omega
      · have := ih (k + step) h
        omega
    · simp at hx

theorem mem_goFor (start stop step x : Nat) (hx : x ∈ goFor start stop step) :
    start ≤ x ∧ x < stop := mem_forLoop _ _ _ _ _ hx

theorem forLoop_one (fuel k stop : Nat) (h : stop - k ≤ fuel) :
    forLoop fuel k stop 1 = List.range' k (stop - k) := by
  induction fuel generalizing k with
  | zero =>
    have : stop - k = 0 := by omega
    simp [forLoop, this]
  | succ n ih =>
    unfold forLoop
    split
    · rename_i hk
      rw [ih (k + 1) (by omega)]
      have : stop - k = (stop - (k + 1)) + 1 := by omega
      rw [this, List.range'_succ]
    · rename_i hk
      have : stop - k = 0 := by omega
      simp [this]

theorem goFor_one (start stop : Nat) : goFor start stop 1 = List.range' start (stop - start) :=
  forLoop_one _ _ _ (le_refl _)

theorem mem_goFor_one (start stop x : Nat) : x ∈ goFor start stop 1 ↔ start ≤ x ∧ x < stop := by
  rw [goFor_one, List.mem_range'_1]
  omega

theorem forEach_fillPixel (mandel : Nat → Nat → Int) (L : List (Nat × Nat)) (m : img)
    (hL : ∀ p ∈ L, p.1 < m.w ∧ p.2 < m.h) :
    forEach (fillPixel_ mandel) L m =
      .ok ⟨m.h, m.w, fun x y => if (x, y) ∈ L then paint (mandel x y * 15) else m.m x y⟩ := by
  induction L generalizing m with
  | nil => simp [forEach]
  | cons a as ih =>
    have ha := hL a (List.mem_cons_self a as)
    simp only [forEach, fillPixel__ok mandel m a ha.1 ha.2]
    rw [ih]
    swap
    · exact fun p hp => hL p (List.mem_cons_of_mem a hp)
    congr 2
    funext x y
    by_cases h1 : (x, y) ∈ as
    · simp [h1]
    · by_cases h2 : x = a.1 ∧ y = a.2
      · obtain ⟨hx, hy⟩ := h2
        subst hx hy
        simp
      · have h3 : (x, y) ≠ a := by
          intro h
          apply h2
          rw [← h]
          exact ⟨rfl, rfl⟩
        simp [h1, h2, h3]

theorem forEach_cells (mandel : Nat → Nat → Int) (L : List (Nat × Nat)) (m : img)
    (hL : ∀ x y, (x, y) ∈ L ↔ x < m.w ∧ y < m.h) :
    forEach (fillPixel_ mandel) L m = .ok (exactCanvas mandel m) := by
  rw [forEach_fillPixel mandel L m (fun p hp => (hL p.1 p.2).1 hp)]
  unfold exactCanvas
  congr 2
  funext x y
  simp only [hL x y]

theorem seqFillImg_eq (mandel : Nat → Nat → Int) (m : img) :
    seqFillImg mandel m = .ok (exactCanvas mandel m) := by
  have h : seqFillImg mandel m = forEach (fillPixel_ mandel)
      ((goFor 0 m.w 1).flatMap (fun i => (goFor 0 m.h 1).map (fun j => (i, j)))) m := by
    rw [forEach_flatMap]
    simp only [forEach_map]
    rfl
  rw [h]
  apply forEach_cells
  intro x y
  simp only [List.mem_flatMap, List.mem_map, mem_goFor_one, Prod.mk.injEq]
  constructor
  · rintro ⟨a, ha, b, hb, rfl, rfl⟩
    omega
  · intro hxy
    exact ⟨x, by omega, y, by omega, rfl, rfl⟩

theorem mem_pixelUnits (m : img) (x y : Nat) : (x, y) ∈ pixelUnits m ↔ x < m.w ∧ y < m.h := by
  simp only [pixelUnits, List.mem_flatMap, List.mem_map, List.mem_range, Prod.mk.injEq]
  constructor
  · rintro ⟨a, ha, b, hb, rfl, rfl⟩
    exact ⟨ha, hb⟩
  · intro hxy
    exact ⟨x, hxy.1, y, hxy.2, rfl, rfl⟩

theorem limit_lt (o size bound : Nat) (hb : 1 ≤ bound) : limit o size bound < bound := by
  unfold limit
  split <;> omega

theorem store_same (m : img) (x y : Nat) (c : RGBA) (hx : x < m.w) (hy : y < m.h) :
    ∃ m1, store m x y c = .ok m1 ∧ m1.w = m.w ∧ m1.h = m.h :=
  ⟨_, store_ok m x y c hx hy, rfl, rfl⟩

theorem fillPixel__same (mandel : Nat → Nat → Int) (W H : Nat) (m : img) (p : Nat × Nat)
    (hx : p.1 < W) (hy : p.2 < H) (hm : m.w = W ∧ m.h = H) :
    ∃ m1, fillPixel_ mandel m p = .ok m1 ∧ (m1.w = W ∧ m1.h = H) := by
  obtain ⟨hw, hh⟩ := hm
  subst hw hh
  exact ⟨_, fillPixel__ok mandel m p hx hy, rfl, rfl⟩

/-- A nested pair of loops that stores into cells inside the canvas ends normally
and keeps the size of the canvas. -/
theorem nested_same {α β : Type} (W H : Nat) (f : img → α × β → Except Fault img)
    (xs : List α) (ys : List β)
    (hf : ∀ m a b, a ∈ xs → b ∈ ys → (m.w = W ∧ m.h = H) →
      ∃ m1, f m (a, b) = .ok m1 ∧ (m1.w = W ∧ m1.h = H))
    (m : img) (hm : m.w = W ∧ m.h = H) :
    ∃ m1, forEach (fun m5 k => forEach (fun m6 l => f m6 (k, l)) ys m5) xs m = .ok m1 ∧
      (m1.w = W ∧ m1.h = H) :=
  forEach_inv (fun m0 => m0.w = W ∧ m0.h = H) _ xs
    (fun m0 a ha h0 => forEach_inv (fun m0 => m0.w = W ∧ m0.h = H) _ ys
      (fun m2 b hb h2 => hf m2 a b ha hb h2) m0 h0) m hm

theorem perPixel_same (mandel : Nat → Nat → Int) (m : img) (sx ex sy ey : Nat)
    (hx : ex ≤ m.w) (hy : ey ≤ m.h) :
    ∃ m1, perPixel mandel m sx ex sy ey = .ok m1 ∧ (m1.w = m.w ∧ m1.h = m.h) := by
  unfold perPixel
  apply nested_same m.w m.h (fillPixel_ mandel)
  · intro m0 a b ha hb h0
    have h1 := (mem_goFor_one _ _ _).1 ha
    have h2 := (mem_goFor_one _ _ _).1 hb
    exact fillPixel__same mandel m.w m.h m0 (a, b) (by simp; omega) (by simp; omega) h0
  · exact ⟨rfl, rfl⟩

theorem fillPixel_same (mandel : Nat → Nat → Int) (W H : Nat) (m : img) (i j : Nat)
    (hx : i < W) (hy : j < H) (hm : m.w = W ∧ m.h = H) :
    ∃ m1, fillPixel mandel m i j = .ok (m1, mandel i j * 15) ∧ (m1.w = W ∧ m1.h = H) := by
  obtain ⟨hw, hh⟩ := hm
  subst hw hh
  exact ⟨_, fillPixel_ok mandel m i j hx hy, rfl, rfl⟩

theorem checkBlock_same (mandel : Nat → Nat → Int) (t : Task) (m : img) (w h : Nat)
    (hi : t.i < m.w) (hj : t.j < m.h) :
    ∃ m1, checkBlock mandel t m w h = .ok (m1, !cornersAgree mandel t m w h) ∧
      (m1.w = m.w ∧ m1.h = m.h) := by
  have hlw : limit t.i w m.w < m.w := limit_lt _ _ _ (by omega)
  have hlh : limit t.j h m.h < m.h := limit_lt _ _ _ (by omega)
  obtain ⟨m1, e1, s1⟩ := fillPixel_same mandel m.w m.h m t.i t.j hi hj ⟨rfl, rfl⟩
  obtain ⟨m2, e2, s2⟩ := fillPixel_same mandel m.w m.h m1 _ _ hlw hlh s1
  obtain ⟨m3, e3, s3⟩ := fillPixel_same mandel m.w m.h m2 _ _ hi hlh s2
  obtain ⟨m4, e4, s4⟩ := fillPixel_same mandel m.w m.h m3 _ _ hlw hj s3
  unfold checkBlock
  simp only [e1, e2, e3, e4]
  by_cases hc : cornersAgree mandel t m w h = true
  · have hc2 := hc
    unfold cornersAgree at hc2
    simp only [] at hc2
    rw [if_pos hc2]
    obtain ⟨m7, h7, hs⟩ := nested_same m.w m.h (paintCell (mandel t.i t.j * 15))
      (goFor t.i (limit t.i w m.w) 1) (goFor t.j (limit t.j h m.h) 1)
      (fun m0 a b ha hb h0 => by
        have h1 := (mem_goFor_one _ _ _).1 ha
        have h2 := (mem_goFor_one _ _ _).1 hb
        obtain ⟨hw0, hh0⟩ := h0
        obtain ⟨m1, hm1, e1, e2⟩ := store_same m0 a b (paint (mandel t.i t.j * 15))
          (by omega) (by omega)
        exact ⟨m1, hm1, by omega, by omega⟩)
      m4 s4
    rw [h7]
    simp only [hc]
    exact ⟨m7, rfl, hs⟩
  · have hc2 := hc
    unfold cornersAgree at hc2
    simp only [] at hc2
    rw [if_neg hc2]
    simp only [Bool.not_eq_true] at hc
    simp only [hc]
    exact ⟨_, rfl, s4⟩

theorem mem_subjobs (m : img) (w h : Nat) (t s : Task) (hs : s ∈ subjobs m w h t) :
    s.i < m.w ∧ s.j < m.h ∧ (t.i ≤ s.i ∧ s.i < t.i + w * 2) ∧ (t.j ≤ s.j ∧ s.j < t.j + h * 2) := by
  simp only [subjobs, List.mem_flatMap, List.mem_map, List.mem_filter, Bool.and_eq_true,
    decide_eq_true_eq] at hs
  obtain ⟨k, hk, l, ⟨hl, hkw, hlh⟩, rfl⟩ := hs
  exact ⟨hkw, hlh, mem_goFor _ _ _ _ hk, mem_goFor _ _ _ _ hl⟩

theorem mem_initialJobs (m : img) (BSX BSY : Nat) (t : Task) (ht : t ∈ initialJobs m BSX BSY) :
    t.i < m.w ∧ t.j < m.h := by
  simp only [initialJobs, List.mem_flatMap, List.mem_map] at ht
  obtain ⟨i, hi, j, hj, rfl⟩ := ht
  exact ⟨(mem_goFor _ _ _ _ hi).2, (mem_goFor _ _ _ _ hj).2⟩

theorem forLoop_ge (fuel k stop step : Nat) (h : stop ≤ k) : forLoop fuel k stop step = [] := by
  cases fuel with
  | zero => rfl
  | succ n =>
    unfold forLoop
    rw [if_neg (by omega)]

theorem goFor_two (a s : Nat) (hs : 1 ≤ s) : goFor a (a + s * 2) s = [a, a + s] := by
  unfold goFor
  have h : a + s * 2 - a = (s * 2 - 2) + 1 + 1 := by omega
  rw [h]
  simp only [forLoop]
  rw [if_pos (by omega), if_pos (by omega), forLoop_ge _ _ _ _ (by omega)]

theorem goFor_length_le (a s : Nat) : (goFor a (a + s * 2) s).length ≤ 2 := by
  rcases Nat.eq_zero_or_pos s with h | h
  · subst h
    simp [goFor, forLoop_ge]
  · rw [goFor_two a s h]
    simp

theorem subjobs_length_le (m : img) (w h : Nat) (t : Task) : (subjobs m w h t).length ≤ 4 := by
  have hin : ∀ k, (((goFor t.j (t.j + h * 2) h).filter (fun l => k < m.w && l < m.h)).map
      (fun l => (⟨k, l⟩ : Task))).length ≤ 2 := by
    intro k
    rw [List.length_map]
    exact le_trans (List.length_filter_le _ _) (goFor_length_le t.j h)
  unfold subjobs
  rcases Nat.eq_zero_or_pos w with hw | hw
  · subst hw
    simp [goFor, forLoop_ge]
  · rw [goFor_two t.i w hw]
    simp only [List.flatMap_cons, List.flatMap_nil, List.append_nil, List.length_append]
    have h1 := hin t.i
    have h2 := hin (t.i + w)
    omega

theorem subjobs_four (m : img) (w h : Nat) (t : Task) (hw : 1 ≤ w) (hh : 1 ≤ h)
    (hi : t.i + w < m.w) (hj : t.j + h < m.h) :
    subjobs m w h t = [⟨t.i, t.j⟩, ⟨t.i, t.j + h⟩, ⟨t.i + w, t.j⟩, ⟨t.i + w, t.j + h⟩] := by
  unfold subjobs
  rw [goFor_two t.i w hw, goFor_two t.j h hh]
  have h1 : t.i < m.w := by omega
  have h2 : t.j < m.h := by omega
  simp [List.filter, h1, h2, hi, hj]

theorem mem_goFor_two (a s x : Nat) :
    x ∈ goFor a (a + s * 2) s ↔ 1 ≤ s ∧ (x = a ∨ x = a + s) := by
  rcases Nat.eq_zero_or_pos s with h | h
  · subst h
    simp [goFor, forLoop_ge]
  · rw [goFor_two a s h]
    simp only [List.mem_cons, List.mem_singleton, List.not_mem_nil, or_false]
    constructor
    · intro hx
      exact ⟨h, hx⟩
    · intro hx
      exact hx.2

theorem mem_subjobs_iff (m : img) (w h : Nat) (t s : Task) :
    s ∈ subjobs m w h t ↔
      1 ≤ w ∧ 1 ≤ h ∧ (s.i = t.i ∨ s.i = t.i + w) ∧ (s.j = t.j ∨ s.j = t.j + h) ∧
        s.i < m.w ∧ s.j < m.h := by
  simp only [subjobs, List.mem_flatMap, List.mem_map, List.mem_filter, Bool.and_eq_true,
    decide_eq_true_eq, mem_goFor_two]
  constructor
  · rintro ⟨k, ⟨hw, hk⟩, l, ⟨⟨hh, hl⟩, hkw, hlh⟩, rfl⟩
    exact ⟨hw, hh, hk, hl, hkw, hlh⟩
  · rintro ⟨hw, hh, hk, hl, hkw, hlh⟩
    exact ⟨s.i, ⟨hw, hk⟩, s.j, ⟨⟨hh, hl⟩, hkw, hlh⟩, rfl⟩

/-- A pool whose jobs all make their stores inside the canvas, returning or
blocking, does so as a whole. -/
theorem pool_safe (P : img → Prop) (f : img → Task → Outcome) (l : List Task)
    (hf : ∀ m a, a ∈ l → P m → ∃ m1, (f m a = .returns m1 ∨ f m a = .hangs m1) ∧ P m1)
    (m : img) (hm : P m) :
    ∃ m1, (pool f l m = .returns m1 ∨ pool f l m = .hangs m1) ∧ P m1 := by
  induction l generalizing m with
  | nil => exact ⟨m, Or.inl rfl, hm⟩
  | cons a as ih =>
    have ih1 := fun m1 h1 => ih (fun m2 b hb hp => hf m2 b (List.mem_cons_of_mem a hb) hp) m1 h1
    obtain ⟨m1, h1 | h1, hP⟩ := hf m a (List.mem_cons_self a as) hm
    · simp only [pool, h1]
      exact ih1 m1 hP
    · obtain ⟨m2, h2 | h2, hP2⟩ := ih1 m1 hP
      · exact ⟨m2, Or.inr (by simp only [pool, h1, h2]), hP2⟩
      · exact ⟨m2, Or.inr (by simp only [pool, h1, h2]), hP2⟩

/-- A pool whose jobs all return, unless the fuel runs out, returns as a whole,
unless the fuel runs out. -/
theorem pool_returns (P : img → Prop) (f : img → Task → Outcome) (l : List Task)
    (hf : ∀ m a, a ∈ l → P m → (∃ m1, f m a = .returns m1 ∧ P m1) ∨ f m a = .faults .outOfFuel)
    (m : img) (hm : P m) :
    (∃ m1, pool f l m = .returns m1 ∧ P m1) ∨ pool f l m = .faults .outOfFuel := by
  induction l generalizing m with
  | nil => exact Or.inl ⟨m, rfl, hm⟩
  | cons a as ih =>
    rcases hf m a (List.mem_cons_self a as) hm with ⟨m1, h1, hP⟩ | h1
    · simp only [pool, h1]
      exact ih (fun m2 b hb hp => hf m2 b (List.mem_cons_of_mem a hb) hp) m1 hP
    · exact Or.inr (by simp only [pool, h1])

/-- The receive loop of `devide` after a pool that made its stores inside the
canvas: `devide` returns or blocks. -/
theorem join_devide_safe (P : img → Prop) (sent : Nat) (hsent : sent ≤ 4) (o : Outcome)
    (ho : ∃ m1, (o = .returns m1 ∨ o = .hangs m1) ∧ P m1) :
    ∃ m1, (join devideAwaited sent o = .returns m1 ∨ join devideAwaited sent o = .hangs m1) ∧
      P m1 := by
  obtain ⟨m1, h1 | h1, hP⟩ := ho
  · subst h1
    refine ⟨m1, ?_, hP⟩
    simp only [join, devideAwaited]
    by_cases h4 : sent < 4
    · exact Or.inr (by rw [if_pos h4])
    · exact Or.inl (by rw [if_neg h4, if_neg (by omega)])
  · subst h1
    refine ⟨m1, Or.inr ?_, hP⟩
    simp only [join, devideAwaited]
    rw [if_neg (by omega)]

theorem worker_same (mandel : Nat → Nat → Int) (sched : List Task → List Task)
    (hs : ∀ l, (sched l).Perm l) (W H : Nat) :
    ∀ (fuel w h : Nat) (m : img) (t : Task), w + h + 1 ≤ fuel → (m.w = W ∧ m.h = H) →
      t.i < W → t.j < H →
      ∃ m1, (worker mandel sched fuel w h m t = .returns m1 ∨
          worker mandel sched fuel w h m t = .hangs m1) ∧ (m1.w = W ∧ m1.h = H) := by
  intro fuel
  induction fuel with
  | zero => intro w h m t hf; omega
  | succ n ih =>
    intro w h m t hf hm hi hj
    obtain ⟨hw, hh⟩ := hm
    obtain ⟨m1, e1, s1⟩ := checkBlock_same mandel t m w h (by omega) (by omega)
    simp only [worker, e1]
    split
    · rename_i hc
      simp only [Bool.and_eq_true, Bool.or_eq_true, decide_eq_true_eq] at hc
      unfold devide
      apply join_devide_safe (fun m0 => m0.w = W ∧ m0.h = H) _ (subjobs_length_le _ _ _ _)
      apply pool_safe (fun m0 => m0.w = W ∧ m0.h = H)
      · intro m0 s hsm h0
        have h1 := mem_subjobs _ _ _ _ _ ((hs _).mem_iff.1 hsm)
        exact ih (w / 2) (h / 2) m0 s (by omega) h0 (by omega) (by omega)
      · exact ⟨by omega, by omega⟩
    · split
      · obtain ⟨m2, e2, s2⟩ := perPixel_same mandel m1 t.i (limit t.i w m1.w) t.j
          (limit t.j h m1.h) (le_of_lt (limit_lt _ _ _ (by omega)))
          (le_of_lt (limit_lt _ _ _ (by omega)))
        simp only [e2]
        exact ⟨m2, Or.inl rfl, by omega, by omega⟩
      · exact ⟨m1, Or.inl rfl, by omega, by omega⟩

theorem foldr_max_mem (l : List Nat) : l.foldr max 0 = 0 ∨ l.foldr max 0 ∈ l := by
  induction l with
  | nil => exact Or.inl rfl
  | cons a as ih =>
    simp only [List.foldr_cons, List.mem_cons]
    rcases Nat.le_total a (as.foldr max 0) with h | h
    · rw [Nat.max_eq_right h]
      rcases ih with h0 | h0
      · exact Or.inl h0
      · exact Or.inr (Or.inr h0)
    · rw [Nat.max_eq_left h]
      exact Or.inr (Or.inl rfl)

/-- A subdivision happens only on a block with a side above 4, and each one
halves both sides. -/
theorem depth_bound (mandel : Nat → Nat → Int) (m : img) :
    ∀ (fuel w h : Nat) (t : Task), 1 ≤ depth mandel fuel m w h t →
      5 * 2 ^ (depth mandel fuel m w h t - 1) ≤ max w h := by
  intro fuel
  induction fuel with
  | zero => intro w h t hd; simp [depth] at hd
  | succ n ih =>
    intro w h t hd
    unfold depth at hd ⊢
    split at hd
    · rename_i hc
      rw [if_pos hc]
      simp only [Bool.and_eq_true, Bool.or_eq_true, decide_eq_true_eq] at hc
      have hmax : 5 ≤ max w h := by
        rcases hc.2 with h5 | h5
        · exact le_trans h5 (le_max_right w h)
        · exact le_trans h5 (le_max_left w h)
      rcases foldr_max_mem
        ((subjobs m (w / 2) (h / 2) t).map (depth mandel n m (w / 2) (h / 2))) with h0 | h0
      · rw [h0]
        simpa using hmax
      · obtain ⟨s, -, hs⟩ := List.mem_map.1 h0
        generalize ((subjobs m (w / 2) (h / 2) t).map
          (depth mandel n m (w / 2) (h / 2))).foldr max 0 = D at hs ⊢
        rcases Nat.eq_zero_or_pos D with hD | hD
        · subst hD
          simpa using hmax
        · have h1 := ih (w / 2) (h / 2) s (by omega)
          rw [hs] at h1
          have h2 : max (w / 2) (h / 2) * 2 ≤ max w h := by
            rcases Nat.le_total (w / 2) (h / 2) with hle | hle
            · rw [Nat.max_eq_right hle]
              exact le_trans (by omega) (le_max_right w h)
            · rw [Nat.max_eq_left hle]
              exact le_trans (by omega) (le_max_left w h)
          have h3 : 2 ^ (1 + D - 1) = 2 ^ (D - 1) * 2 := by
            have : 1 + D - 1 = (D - 1) + 1 := by omega
            rw [this, pow_succ]
          rw [h3]
          calc 5 * (2 ^ (D - 1) * 2) = (5 * 2 ^ (D - 1)) * 2 := by ring
            _ ≤ max (w / 2) (h / 2) * 2 := Nat.mul_le_mul_right 2 h1
            _ ≤ max w h := h2
    · omega

theorem depth_stable (mandel : Nat → Nat → Int) (m : img) :
    ∀ (f1 f2 w h : Nat) (t : Task), w + h + 1 ≤ f1 → w + h + 1 ≤ f2 →
      depth mandel f1 m w h t = depth mandel f2 m w h t := by
  intro f1
  induction f1 with
  | zero => intro f2 w h t h1; omega
  | succ n ih =>
    intro f2 w h t h1 h2
    cases f2 with
    | zero => omega
    | succ k =>
      unfold depth
      split
      · rename_i hc
        simp only [Bool.and_eq_true, Bool.or_eq_true, decide_eq_true_eq] at hc
        congr 2
        apply List.map_congr_left
        intro s _
        exact ih k (w / 2) (h / 2) s (by omega) (by omega)
      · rfl

theorem depth_square (mandel : Nat → Nat → Int) (m : img) (fuel n : Nat) (t : Task) :
    16 * 4 ^ depth mandel fuel m (4 * 2 ^ n) (4 * 2 ^ n) t ≤ (4 * 2 ^ n) * (4 * 2 ^ n) := by
  have hle : depth mandel fuel m (4 * 2 ^ n) (4 * 2 ^ n) t ≤ n := by
    by_contra hlt
    have h1 := depth_bound mandel m fuel (4 * 2 ^ n) (4 * 2 ^ n) t (by omega)
    rw [max_self] at h1
    have h2 : 2 ^ n ≤ 2 ^ (depth mandel fuel m (4 * 2 ^ n) (4 * 2 ^ n) t - 1) :=
      Nat.pow_le_pow_right (by decide) (by omega)
    have hpos : 0 < 2 ^ n := Nat.two_pow_pos n
    omega
  have h4 : 4 ^ depth mandel fuel m (4 * 2 ^ n) (4 * 2 ^ n) t ≤ 4 ^ n :=
    Nat.pow_le_pow_right (by decide) hle
  have h5 : (4 : Nat) ^ n = 2 ^ n * 2 ^ n := by
    rw [← mul_pow]
    norm_num
  calc 16 * 4 ^ depth mandel fuel m (4 * 2 ^ n) (4 * 2 ^ n) t ≤ 16 * 4 ^ n :=
        Nat.mul_le_mul_left 16 h4
    _ = (4 * 2 ^ n) * (4 * 2 ^ n) := by rw [h5]; ring

theorem le_foldr_max (l : List Nat) (x : Nat) (hx : x ∈ l) : x ≤ l.foldr max 0 := by
  induction l with
  | nil => simp at hx
  | cons a as ih =>
    simp only [List.foldr_cons]
    rcases List.mem_cons.1 hx with h | h
    · subst h
      exact le_max_left _ _
    · exact le_trans (ih h) (le_max_right _ _)

theorem cornersAgree_size (mandel : Nat → Nat → Int) (t : Task) (m m0 : img) (w h : Nat)
    (hm : m0.w = m.w ∧ m0.h = m.h) :
    cornersAgree mandel t m0 w h = cornersAgree mandel t m w h := by
  simp only [cornersAgree, hm.1, hm.2]

theorem subjobs_size (m m0 : img) (w h : Nat) (t : Task) (hm : m0.w = m.w ∧ m0.h = m.h) :
    subjobs m0 w h t = subjobs m w h t := by
  simp only [subjobs, hm.1, hm.2]

theorem depth_size (mandel : Nat → Nat → Int) (m m0 : img) (hm : m0.w = m.w ∧ m0.h = m.h) :
    ∀ (fuel w h : Nat) (t : Task), depth mandel fuel m0 w h t = depth mandel fuel m w h t := by
  intro fuel
  induction fuel with
  | zero => intro w h t; rfl
  | succ n ih =>
    intro w h t
    simp only [depth, cornersAgree_size mandel t m m0 w h hm, subjobs_size m m0 _ _ t hm]
    split
    · congr 2
      apply List.map_congr_left
      intro s _
      exact ih _ _ s
    · rfl

/-- The nesting of `worker` calls below a job is at most its `depth`: with more
fuel than that, `worker` does not run out of fuel, and makes all its stores
inside the canvas. -/
theorem worker_fuel (mandel : Nat → Nat → Int) (sched : List Task → List Task)
    (hs : ∀ l, (sched l).Perm l) (M : img) :
    ∀ (fuel w h : Nat) (m : img) (t : Task), depth mandel (w + h + 1) M w h t < fuel →
      (m.w = M.w ∧ m.h = M.h) → t.i < M.w → t.j < M.h →
      ∃ m1, (worker mandel sched fuel w h m t = .returns m1 ∨
          worker mandel sched fuel w h m t = .hangs m1) ∧ (m1.w = M.w ∧ m1.h = M.h) := by
  intro fuel
  induction fuel with
  | zero => intro w h m t hf; omega
  | succ n ih =>
    intro w h m t hf hm hi hj
    obtain ⟨hw, hh⟩ := hm
    obtain ⟨m1, e1, s1⟩ := checkBlock_same mandel t m w h (by omega) (by omega)
    have s1M : m1.w = M.w ∧ m1.h = M.h := ⟨by omega, by omega⟩
    simp only [worker, e1]
    split
    · rename_i hc
      unfold depth at hf
      rw [cornersAgree_size mandel t M m w h ⟨hw, hh⟩] at hc
      rw [if_pos hc] at hf
      simp only [Bool.and_eq_true, Bool.or_eq_true, decide_eq_true_eq] at hc
      unfold devide
      apply join_devide_safe (fun m0 => m0.w = M.w ∧ m0.h = M.h) _ (subjobs_length_le _ _ _ _)
      apply pool_safe (fun m0 => m0.w = M.w ∧ m0.h = M.h)
      · intro m0 s hsm h0
        have hsm1 := (hs _).mem_iff.1 hsm
        rw [subjobs_size M m1 _ _ t s1M] at hsm1
        have h1 := mem_subjobs _ _ _ _ _ hsm1
        have h2 := le_foldr_max _ _ (List.mem_map_of_mem (depth mandel (w + h) M (w / 2) (h / 2)) hsm1)
        have h3 := depth_stable mandel M (w + h) (w / 2 + h / 2 + 1) (w / 2) (h / 2) s
          (by omega) (le_refl _)
        exact ih (w / 2) (h / 2) m0 s (by omega) h0 h1.1 h1.2.1
      · exact s1M
    · split
      · obtain ⟨m2, e2, s2⟩ := perPixel_same mandel m1 t.i (limit t.i w m1.w) t.j
          (limit t.j h m1.h) (le_of_lt (limit_lt _ _ _ (by omega)))
          (le_of_lt (limit_lt _ _ _ (by omega)))
        simp only [e2]
        exact ⟨m2, Or.inl rfl, by omega, by omega⟩
      · exact ⟨m1, Or.inl rfl, s1M⟩

/-- A pool whose jobs all return returns. -/
theorem pool_all_return (P : img → Prop) (f : img → Task → Outcome) (l : List Task)
    (hf : ∀ m a, a ∈ l → P m → ∃ m1, f m a = .returns m1 ∧ P m1) (m : img) (hm : P m) :
    ∃ m1, pool f l m = .returns m1 ∧ P m1 := by
  induction l generalizing m with
  | nil => exact ⟨m, rfl, hm⟩
  | cons a as ih =>
    obtain ⟨m1, h1, hP⟩ := hf m a (List.mem_cons_self a as) hm
    simp only [pool, h1]
    exact ih (fun m2 b hb hp => hf m2 b (List.mem_cons_of_mem a hb) hp) m1 hP

theorem half_square (n : Nat) : 4 * 2 ^ (n + 1) / 2 = 4 * 2 ^ n := by
  rw [pow_succ]
  omega

/-- A square block of side `4 * 2^n` that lies inside the canvas: every `devide`
below it sends 4 sub-blocks, of side `4 * 2^(n-1)` and inside the canvas, so
`worker` returns unless the fuel runs out. -/
theorem worker_square (mandel : Nat → Nat → Int) (sched : List Task → List Task)
    (hs : ∀ l, (sched l).Perm l) (W H : Nat) :
    ∀ (fuel n : Nat) (m : img) (t : Task), (m.w = W ∧ m.h = H) →
      t.i + 4 * 2 ^ n ≤ W → t.j + 4 * 2 ^ n ≤ H →
      (∃ m1, worker mandel sched fuel (4 * 2 ^ n) (4 * 2 ^ n) m t = .returns m1 ∧
        (m1.w = W ∧ m1.h = H)) ∨
      worker mandel sched fuel (4 * 2 ^ n) (4 * 2 ^ n) m t = .faults .outOfFuel := by
  intro fuel
  induction fuel with
  | zero => intro n m t _ _ _; exact Or.inr rfl
  | succ k ih =>
    intro n m t hm hi hj
    obtain ⟨hw, hh⟩ := hm
    have hp : 0 < 2 ^ n := Nat.two_pow_pos n
    obtain ⟨m1, e1, s1⟩ := checkBlock_same mandel t m (4 * 2 ^ n) (4 * 2 ^ n)
      (by omega) (by omega)
    have s1W : m1.w = W ∧ m1.h = H := ⟨by omega, by omega⟩
    simp only [worker, e1]
    split
    · rename_i hc
      simp only [Bool.and_eq_true, Bool.or_eq_true, decide_eq_true_eq] at hc
      cases n with
      | zero => omega
      | succ n1 =>
        have hp1 : 0 < 2 ^ n1 := Nat.two_pow_pos n1
        have hdbl : 4 * 2 ^ (n1 + 1) = 4 * 2 ^ n1 + 4 * 2 ^ n1 := by
          rw [pow_succ]
          omega
        unfold devide
        simp only [half_square]
        have h4 := subjobs_four m1 (4 * 2 ^ n1) (4 * 2 ^ n1) t (by omega) (by omega)
          (by omega) (by omega)
        have hlen : (subjobs m1 (4 * 2 ^ n1) (4 * 2 ^ n1) t).length = 4 := by
          rw [h4]
          rfl
        rw [hlen]
        rcases pool_returns (fun m0 => m0.w = W ∧ m0.h = H)
            (worker mandel sched k (4 * 2 ^ n1) (4 * 2 ^ n1))
            (sched (subjobs m1 (4 * 2 ^ n1) (4 * 2 ^ n1) t))
            (fun m0 s hsm h0 => by
              have h1 := (mem_subjobs_iff _ _ _ _ _).1 ((hs _).mem_iff.1 hsm)
              exact ih n1 m0 s h0 (by omega) (by omega))
            m1 s1W with ⟨m2, h2, hP2⟩ | h2
        · left
          refine ⟨m2, ?_, hP2⟩
          rw [h2]
          simp [join, devideAwaited]
        · right
          rw [h2]
          rfl
    · split
      · rename_i hc2
        simp only [Bool.or_eq_true, decide_eq_true_eq] at hc2
        omega
      · exact Or.inl ⟨m1, rfl, s1W⟩

theorem forLoop_mul (S : Nat) (hS : 1 ≤ S) (a : Nat) :
    ∀ (fuel k : Nat), a - k ≤ fuel →
      forLoop fuel (k * S) (a * S) S = (List.range' k (a - k)).map (fun x => x * S) := by
  intro fuel
  induction fuel with
  | zero =>
    intro k hk
    have : a - k = 0 := by omega
    simp [forLoop, this]
  | succ n ih =>
    intro k hk
    unfold forLoop
    by_cases hlt : k < a
    · have h1 : k * S < a * S := Nat.mul_lt_mul_of_pos_right hlt (by omega)
      have h2 : k * S + S = (k + 1) * S := by rw [Nat.succ_mul]
      have h3 : a - k = (a - (k + 1)) + 1 := by omega
      rw [if_pos h1, h2, ih (k + 1) (by omega), h3, List.range'_succ, List.map_cons]
    · have h1 : ¬ (k * S < a * S) := by
        intro hc
        exact hlt (Nat.lt_of_mul_lt_mul_right hc)
      have h3 : a - k = 0 := by omega
      rw [if_neg h1, h3]
      rfl

theorem goFor_mul (S : Nat) (hS : 1 ≤ S) (a : Nat) :
    goFor 0 (a * S) S = (List.range a).map (fun x => x * S) := by
  have h := forLoop_mul S hS a (a * S - 0) 0 (by
    have : a ≤ a * S := Nat.le_mul_of_pos_right a (by omega)
    omega)
  rw [Nat.zero_mul] at h
  rw [goFor, h, Nat.sub_zero, List.range_eq_range']

theorem length_flatMap_const {α β : Type} (f : α → List β) (c : Nat) (l : List α)
    (hf : ∀ x ∈ l, (f x).length = c) : (l.flatMap f).length = l.length * c := by
  induction l with
  | nil => simp
  | cons x xs ih =>
    rw [List.flatMap_cons, List.length_append, hf x (List.mem_cons_self x xs),
      ih (fun y hy => hf y (List.mem_cons_of_mem x hy)), List.length_cons, Nat.succ_mul]
    omega

/-- On a canvas whose sides are multiples of the block sides, one job is sent per
block, each block lies inside the canvas, and `blocks` is their number. -/
theorem initialJobs_grid (m : img) (BSX BSY a b : Nat) (hX : 1 ≤ BSX) (hY : 1 ≤ BSY)
    (hw : m.w = a * BSX) (hh : m.h = b * BSY) :
    (initialJobs m BSX BSY).length = a * b ∧ blocks m BSX BSY = a * b ∧
    ∀ t ∈ initialJobs m BSX BSY, t.i + BSX ≤ m.w ∧ t.j + BSY ≤ m.h := by
  unfold initialJobs blocks
  rw [hw, hh, goFor_mul BSX hX a, goFor_mul BSY hY b]
  refine ⟨?_, ?_, ?_⟩
  · rw [length_flatMap_const _ b]
    · simp
    · intro x _
      simp
  · have h1 : a * BSX * (b * BSY) = a * b * (BSX * BSY) := by ring
    rw [h1]
    exact Nat.mul_div_cancel _ (Nat.mul_pos (by omega) (by omega))
  · intro t ht
    simp only [List.mem_flatMap, List.mem_map, List.mem_range] at ht
    obtain ⟨i, ⟨i0, hi0, rfl⟩, j, ⟨j0, hj0, rfl⟩, rfl⟩ := ht
    have h1 : (i0 + 1) * BSX ≤ a * BSX := Nat.mul_le_mul_right BSX hi0
    have h2 : (j0 + 1) * BSY ≤ b * BSY := Nat.mul_le_mul_right BSY hj0
    rw [Nat.succ_mul] at h1 h2
    exact ⟨h1, h2⟩

/-- With square blocks of side `4 * 2^n` on a canvas whose sides are multiples of
that side, `nWorkersFillImg` returns. -/
theorem nWorkersFillImg_returns (mandel : Nat → Nat → Int) (sched : List Task → List Task)
    (hs : ∀ l, (sched l).Perm l) (n a b : Nat) (m : img)
    (hw : m.w = a * (4 * 2 ^ n)) (hh : m.h = b * (4 * 2 ^ n)) :
    ∃ m1, nWorkersFillImg mandel sched (4 * 2 ^ n) (4 * 2 ^ n) m = .returns m1 ∧
      (m1.w = m.w ∧ m1.h = m.h) := by
  have hp : 0 < 2 ^ n := Nat.two_pow_pos n
  obtain ⟨hlen, hblk, hin⟩ := initialJobs_grid m (4 * 2 ^ n) (4 * 2 ^ n) a b
    (by omega) (by omega) hw hh
  have hne : ¬ (4 * 2 ^ n * (4 * 2 ^ n) = 0) := by
    intro h0
    rcases Nat.mul_eq_zero.1 h0 with h1 | h1 <;> omega
  unfold nWorkersFillImg
  rw [if_neg hne, hlen, hblk, if_neg (by omega)]
  obtain ⟨m1, h1, hP⟩ := pool_all_return (fun m0 => m0.w = m.w ∧ m0.h = m.h)
    (worker mandel sched (4 * 2 ^ n + 4 * 2 ^ n + 1) (4 * 2 ^ n) (4 * 2 ^ n))
    (sched (initialJobs m (4 * 2 ^ n) (4 * 2 ^ n)))
    (fun m0 t ht h0 => by
      have h2 := hin t ((hs _).mem_iff.1 ht)
      obtain ⟨m2, h3 | h3, hP2⟩ := worker_same mandel sched hs m.w m.h _ _ _ m0 t
        (le_refl _) h0 (by omega) (by omega)
      · exact ⟨m2, h3, hP2⟩
      · rcases worker_square mandel sched hs m.w m.h (4 * 2 ^ n + 4 * 2 ^ n + 1) n m0 t h0
          h2.1 h2.2 with ⟨m3, h4, hP3⟩ | h4
        · exact ⟨m3, h4, hP3⟩
        · rw [h3] at h4
          exact absurd h4 (by simp))
    m ⟨rfl, rfl⟩
  refine ⟨m1, ?_, hP⟩
  rw [h1]
  simp [join]

/-- With at least one worker and more jobs than `blocks`, `nWorkersFillImg`
receives fewer results than jobs were sent. -/
theorem nWorkersFillImg_unjoined (mandel : Nat → Nat → Int) (sched : List Task → List Task)
    (hs : ∀ l, (sched l).Perm l) (BSX BSY : Nat) (m : img) (hne : BSX * BSY ≠ 0)
    (hb : 0 < blocks m BSX BSY) (hlt : blocks m BSX BSY < (initialJobs m BSX BSY).length) :
    nWorkersFillImg mandel sched BSX BSY m = .unjoined := by
  have hX : 1 ≤ BSX := by
    rcases Nat.eq_zero_or_pos BSX with h0 | h0
    · subst h0
      simp at hne
    · exact h0
  obtain ⟨m1, h1 | h1, -⟩ := pool_safe (fun m0 => m0.w = m.w ∧ m0.h = m.h)
      (worker mandel sched (BSX + BSY + 1) BSX BSY) (sched (initialJobs m BSX BSY))
      (fun m0 t ht h0 =>
        worker_same mandel sched hs m.w m.h _ _ _ m0 t (le_refl _) h0
          (mem_initialJobs _ _ _ _ ((hs _).mem_iff.1 ht)).1
          (mem_initialJobs _ _ _ _ ((hs _).mem_iff.1 ht)).2)
      m ⟨rfl, rfl⟩
  · unfold nWorkersFillImg
    rw [if_neg hne, if_neg (by omega), h1]
    simp only [join]
    rw [if_neg (by omega), if_pos hlt]
  · unfold nWorkersFillImg
    rw [if_neg hne, if_neg (by omega), h1]
    simp only [join]
    rw [if_pos hlt]

/-! ## The claims -/

set_option maxRecDepth 1000000

/-- C1 (fails on the code). On a 32 × 32 canvas with the 32 × 32 block and an
evaluator that returns the same count everywhere, `nWorkersFillImg` sends one
job, which is the value of `blocks`, ends normally, and leaves cell (31, 1)
as `Create` allocated it: never painted, transparent.  The block is clipped to
`limit_w = m.w - 1 = 31`, and the bulk fill stops before column 31. -/
theorem adaptive_leaves_gap :
    initialJobs (blank 32 32) 32 32 = [⟨0, 0⟩] ∧ blocks (blank 32 32) 32 32 = 1 ∧
    cellAfter (nWorkersFillImg constMandel id 32 32 (blank 32 32)) 30 1
      = some ⟨255, 255, 255, 255⟩ ∧
    cellAfter (nWorkersFillImg constMandel id 32 32 (blank 32 32)) 31 1
      = some ⟨0, 0, 0, 0⟩ := by
  decide

/-- C2 (fails on the code). For the job (0, 0) of width 4 and height 4 whose
corners disagree, `worker` neither subdivides (`h > 4 || w > 4` is false) nor
calls `perPixel` (`h < 4 || w < 4` is false): cell (1, 1) of the block is left
unpainted, also at the end of the whole run on a 32 × 32 canvas. -/
theorem worker_skips_4x4_block :
    cornersAgree columnMandel ⟨0, 0⟩ (blank 32 32) 4 4 = false ∧
    cellAfter (worker columnMandel id 1 4 4 (blank 32 32) ⟨0, 0⟩) 1 1 = some ⟨0, 0, 0, 0⟩ ∧
    cellAfter (nWorkersFillImg columnMandel id 32 32 (blank 32 32)) 1 1
      = some ⟨0, 0, 0, 0⟩ := by
  decide

/-- C3 (as stated) fails at the count 18: `paint` stores the gray level
`uint8(255 - 270) = 241`, not `255 - min(255, 270) = 0`. -/
theorem paint_not_clamped :
    paint ((18 : Int) * 15) = ⟨241, 241, 241, 255⟩ ∧
    ¬ (((paint ((18 : Int) * 15)).R : Int) = 255 - min 255 ((18 : Int) * 15)) := by
  decide

/-- C3 (amended). For every cell inside the canvas, `fillPixel` returns
`calcval = v * 15` for the count `v` of the evaluator and stores
`R = G = B = (255 - v * 15) mod 2^8`, `A = 255`; for `0 ≤ v ≤ 17` that gray
level is `255 - min(255, v * 15)`. -/
theorem fillPixel_colour (mandel : Nat → Nat → Int) (m : img) (i j : Nat)
    (hi : i < m.w) (hj : j < m.h) :
    ∃ m1, fillPixel mandel m i j = .ok (m1, mandel i j * 15) ∧
      m1.m i j = ⟨((255 - mandel i j * 15) % 256).toNat, ((255 - mandel i j * 15) % 256).toNat,
        ((255 - mandel i j * 15) % 256).toNat, 255⟩ ∧
      (0 ≤ mandel i j → mandel i j ≤ 17 →
        ((((255 - mandel i j * 15) % 256).toNat : Nat) : Int)
          = 255 - min 255 (mandel i j * 15)) := by
  refine ⟨_, fillPixel_ok mandel m i j hi hj, ?_, ?_⟩
  · simp [paint_eq, uint8]
  · intro h0 h17
    omega

/-- C3 (amended) at cell (3, 0) of an 8 × 8 canvas, where the count is 3. -/
theorem fillPixel_colour_witness :
    3 < (blank 8 8).w ∧ 0 < (blank 8 8).h ∧
    ∃ m1, fillPixel columnMandel (blank 8 8) 3 0 = .ok (m1, columnMandel 3 0 * 15) ∧
      m1.m 3 0 = ⟨((255 - columnMandel 3 0 * 15) % 256).toNat,
        ((255 - columnMandel 3 0 * 15) % 256).toNat,
        ((255 - columnMandel 3 0 * 15) % 256).toNat, 255⟩ ∧
      (0 ≤ columnMandel 3 0 → columnMandel 3 0 ≤ 17 →
        ((((255 - columnMandel 3 0 * 15) % 256).toNat : Nat) : Int)
          = 255 - min 255 (columnMandel 3 0 * 15)) :=
  ⟨by decide, by decide, fillPixel_colour columnMandel (blank 8 8) 3 0 (by decide) (by decide)⟩

/-- C4 (fails on the code). On an 8 × 8 canvas with 32 × 32 blocks
`nWorkersFillImg` sends 1 job while `blocks` is 0, and on a 100 × 100 canvas it
sends 16 jobs while `blocks` is 9; on the 64 × 64 canvas both are 4.  The first
run blocks forever on its first send, the second receives 9 results for 16
jobs, the third returns. -/
theorem blocks_undercounts_jobs :
    (initialJobs (blank 8 8) 32 32).length = 1 ∧ blocks (blank 8 8) 32 32 = 0 ∧
    (initialJobs (blank 100 100) 32 32).length = 16 ∧ blocks (blank 100 100) 32 32 = 9 ∧
    (initialJobs (blank 64 64) 32 32).length = 4 ∧ blocks (blank 64 64) 32 32 = 4 ∧
    kindOf (nWorkersFillImg constMandel id 32 32 (blank 8 8)) = .hung ∧
    kindOf (nWorkersFillImg constMandel id 32 32 (blank 100 100)) = .unjoined ∧
    kindOf (nWorkersFillImg constMandel id 32 32 (blank 64 64)) = .returned := by
  refine ⟨by decide, by decide, by decide, by decide, by decide, by decide, by decide, ?_, ?_⟩
  · rw [nWorkersFillImg_unjoined constMandel id (fun l => List.Perm.refl l) 32 32
      (blank 100 100) (by decide) (by decide) (by decide)]
    rfl
  · obtain ⟨m1, h1, -⟩ := nWorkersFillImg_returns constMandel id (fun l => List.Perm.refl l)
      3 2 2 (blank 64 64) (by decide) (by decide)
    have h2 : nWorkersFillImg constMandel id 32 32 (blank 64 64) = .returns m1 := h1
    rw [h2]
    rfl

/-- C5 (fails on the code). The block (32, 0) of size 32 × 32 on a 48 × 32
canvas has disagreeing corners, so `worker` subdivides it; `devide` sends only
the 2 sub-blocks that start inside the canvas and then waits for 4 results:
the call blocks forever.  The same happens to the 1 × 8 block at (3, 0) of an
8 × 8 canvas, for which `devide` sends nothing.  The block (0, 0) of the 48 × 32
canvas gets its 4 sub-blocks and returns. -/
theorem devide_awaits_more_than_sent :
    32 < (blank 48 32).w ∧ 0 < (blank 48 32).h ∧
    cornersAgree columnMandel ⟨32, 0⟩ (blank 48 32) 32 32 = false ∧
    subjobs (blank 48 32) (32 / 2) (32 / 2) ⟨32, 0⟩ = [⟨32, 0⟩, ⟨32, 16⟩] ∧
    devideAwaited = 4 ∧
    kindOf (worker columnMandel id 65 32 32 (blank 48 32) ⟨32, 0⟩) = .hung ∧
    cornersAgree columnMandel ⟨3, 0⟩ (blank 8 8) 1 8 = false ∧
    subjobs (blank 8 8) (1 / 2) (8 / 2) ⟨3, 0⟩ = [] ∧
    kindOf (worker columnMandel id 10 1 8 (blank 8 8) ⟨3, 0⟩) = .hung ∧
    (subjobs (blank 48 32) (32 / 2) (32 / 2) ⟨0, 0⟩).length = 4 ∧
    kindOf (worker columnMandel id 65 32 32 (blank 48 32) ⟨0, 0⟩) = .returned := by
  decide

/-- C6 (fails on the code). On a 64 × 32 canvas the two initial jobs are (0, 0)
and (32, 0).  Cell (32, 16) lies outside the rectangle `[0, 32) × [0, 32)` of
the first job and inside that of the second; each of the two jobs, run alone on
the blank canvas, paints it: the first through a corner sample of a sub-block,
the second through its bulk fill, and with different colours. -/
theorem corner_written_by_two_jobs :
    initialJobs (blank 64 32) 32 32 = [⟨0, 0⟩, ⟨32, 0⟩] ∧
    ¬ (32 < 0 + 32) ∧
    (blank 64 32).m 32 16 = ⟨0, 0, 0, 0⟩ ∧
    cellAfter (worker edgeMandel id 65 32 32 (blank 64 32) ⟨0, 0⟩) 32 16
      = some ⟨240, 240, 240, 255⟩ ∧
    cellAfter (worker edgeMandel id 65 32 32 (blank 64 32) ⟨32, 0⟩) 32 16
      = some ⟨255, 255, 255, 255⟩ := by
  decide

/-- C7 (fails on the code). On a 64 × 32 canvas, processing the jobs in sending
order and processing them in the reverse order leave different canvases: cell
(32, 16) ends with the bulk-fill colour of job (32, 0) in the first run and
with its own colour, sampled by a sub-block of job (0, 0), in the second. -/
theorem order_dependence :
    cellAfter (nWorkersFillImg edgeMandel id 32 32 (blank 64 32)) 32 16
      = some ⟨255, 255, 255, 255⟩ ∧
    cellAfter (nWorkersFillImg edgeMandel List.reverse 32 32 (blank 64 32)) 32 16
      = some ⟨240, 240, 240, 255⟩ ∧
    nWorkersFillImg edgeMandel id 32 32 (blank 64 32)
      ≠ nWorkersFillImg edgeMandel List.reverse 32 32 (blank 64 32) := by
  have h1 : cellAfter (nWorkersFillImg edgeMandel id 32 32 (blank 64 32)) 32 16
      = some ⟨255, 255, 255, 255⟩ := by decide
  have h2 : cellAfter (nWorkersFillImg edgeMandel List.reverse 32 32 (blank 64 32)) 32 16
      = some ⟨240, 240, 240, 255⟩ := by decide
  refine ⟨h1, h2, ?_⟩
  intro h
  rw [h, h2] at h1
  exact absurd h1 (by decide)

/-- C8. The three exact schedulers leave the same canvas: whatever the order in
which the goroutines of `oneToOneFillImg` (one per cell) and of
`onePerRowFillImg` (one per row) run, the result equals that of `seqFillImg`,
which ends normally with every cell `(i, j)` of the canvas holding the colour
stored by `fillPixel(m, i, j)`. -/
theorem exact_schedulers_agree (mandel : Nat → Nat → Int) (m : img)
    (schedPx : List (Nat × Nat) → List (Nat × Nat)) (schedRow : List Nat → List Nat)
    (hpx : (schedPx (pixelUnits m)).Perm (pixelUnits m))
    (hrow : (schedRow (rowUnits m)).Perm (rowUnits m)) :
    oneToOneFillImg mandel schedPx m = seqFillImg mandel m ∧
    onePerRowFillImg mandel schedRow m = seqFillImg mandel m ∧
    ∃ m1, seqFillImg mandel m = .ok m1 ∧ m1.w = m.w ∧ m1.h = m.h ∧
      ∀ i j, i < m.w → j < m.h → m1.m i j = paint (mandel i j * 15) := by
  refine ⟨?_, ?_, exactCanvas mandel m, seqFillImg_eq mandel m, rfl, rfl, ?_⟩
  · rw [seqFillImg_eq]
    apply forEach_cells
    intro x y
    rw [hpx.mem_iff, mem_pixelUnits]
  · rw [seqFillImg_eq]
    have h : onePerRowFillImg mandel schedRow m = forEach (fillPixel_ mandel)
        ((schedRow (rowUnits m)).flatMap (fun i => (List.range m.h).map (fun j => (i, j)))) m := by
      rw [forEach_flatMap]
      simp only [forEach_map]
      rfl
    have hmem : ∀ a, a ∈ schedRow (rowUnits m) ↔ a < m.w := fun a => by
      rw [hrow.mem_iff, rowUnits, List.mem_range]
    rw [h]
    apply forEach_cells
    intro x y
    simp only [List.mem_flatMap, List.mem_map, List.mem_range, Prod.mk.injEq, hmem]
    constructor
    · rintro ⟨a, ha, b, hb, rfl, rfl⟩
      exact ⟨ha, hb⟩
    · intro hxy
      exact ⟨x, hxy.1, y, hxy.2, rfl, rfl⟩
  · intro i j hi hj
    simp [exactCanvas, hi, hj]

/-- C8 on a 2 × 3 canvas, with both sets of goroutines run in reverse order. -/
theorem exact_schedulers_agree_witness :
    (List.reverse (pixelUnits (blank 2 3))).Perm (pixelUnits (blank 2 3)) ∧
    (List.reverse (rowUnits (blank 2 3))).Perm (rowUnits (blank 2 3)) ∧
    oneToOneFillImg columnMandel List.reverse (blank 2 3) = seqFillImg columnMandel (blank 2 3) ∧
    onePerRowFillImg columnMandel List.reverse (blank 2 3)
      = seqFillImg columnMandel (blank 2 3) ∧
    ∃ m1, seqFillImg columnMandel (blank 2 3) = .ok m1 ∧ m1.w = (blank 2 3).w ∧
      m1.h = (blank 2 3).h ∧
      ∀ i j, i < (blank 2 3).w → j < (blank 2 3).h → m1.m i j = paint (columnMandel i j * 15) :=
  ⟨List.reverse_perm _, List.reverse_perm _,
    exact_schedulers_agree columnMandel (blank 2 3) List.reverse List.reverse
      (List.reverse_perm _) (List.reverse_perm _)⟩

/-- C9 (as stated) fails at the 5 × 5 block: `worker` subdivides it once (it
runs out of fuel 1 and returns with fuel 2), so the depth is 1, and
`16 * 4^1 ≤ 5 * 5` is false. -/
theorem depth_exceeds_area_bound :
    depth columnMandel (5 + 5 + 1) (blank 8 8) 5 5 ⟨0, 0⟩ = 1 ∧
    kindOf (worker columnMandel id 1 5 5 (blank 8 8) ⟨0, 0⟩) = .faulted .outOfFuel ∧
    kindOf (worker columnMandel id 2 5 5 (blank 8 8) ⟨0, 0⟩) = .returned ∧
    ¬ (16 * 4 ^ depth columnMandel (5 + 5 + 1) (blank 8 8) 5 5 ⟨0, 0⟩ ≤ 5 * 5) := by
  decide

/-- C9 (amended). For every block of width `w` and height `h` that starts inside
the canvas, every evaluator and every schedule, the recursion
`worker → devide → worker` is finite: with any fuel above the depth `d` of
nested subdivisions `worker` does not run out of fuel (it returns, or blocks in
a `devide` that waits for more results than it sent jobs), `d ≤ w + h`, and `d`
does not depend on the fuel from `w + h + 1` on.  The depth satisfies
`5 * 2^(d-1) ≤ max w h` when `d ≥ 1`.  When `w = h = 4 * 2^n`, also
`16 * 4^d ≤ w * h`, and `worker` returns if the block lies inside the canvas. -/
theorem recursion_depth_bounded (mandel : Nat → Nat → Int) (sched : List Task → List Task)
    (hs : ∀ l, (sched l).Perm l) (m : img) (w h : Nat) (t : Task)
    (hi : t.i < m.w) (hj : t.j < m.h) :
    (∀ fuel, depth mandel (w + h + 1) m w h t < fuel →
      ∃ m1, worker mandel sched fuel w h m t = .returns m1 ∨
        worker mandel sched fuel w h m t = .hangs m1) ∧
    depth mandel (w + h + 1) m w h t < w + h + 1 ∧
    (∀ fuel, w + h + 1 ≤ fuel → depth mandel fuel m w h t = depth mandel (w + h + 1) m w h t) ∧
    (1 ≤ depth mandel (w + h + 1) m w h t →
      5 * 2 ^ (depth mandel (w + h + 1) m w h t - 1) ≤ max w h) ∧
    (∀ n, w = 4 * 2 ^ n → h = 4 * 2 ^ n →
      16 * 4 ^ depth mandel (w + h + 1) m w h t ≤ w * h ∧
      (t.i + w ≤ m.w → t.j + h ≤ m.h → ∀ fuel, depth mandel (w + h + 1) m w h t < fuel →
        ∃ m1, worker mandel sched fuel w h m t = .returns m1)) := by
  have hsafe : ∀ fuel, depth mandel (w + h + 1) m w h t < fuel →
      ∃ m1, worker mandel sched fuel w h m t = .returns m1 ∨
        worker mandel sched fuel w h m t = .hangs m1 := by
    intro fuel hf
    obtain ⟨m1, h1, -⟩ := worker_fuel mandel sched hs m fuel w h m t hf ⟨rfl, rfl⟩ hi hj
    exact ⟨m1, h1⟩
  refine ⟨hsafe, ?_, ?_, depth_bound mandel m _ w h t, ?_⟩
  · have hb := depth_bound mandel m (w + h + 1) w h t
    have hp : ∀ k : Nat, k < 2 ^ k := fun k => Nat.lt_two_pow k
    rcases Nat.eq_zero_or_pos (depth mandel (w + h + 1) m w h t) with h0 | h0
    · omega
    · have h1 := hb h0
      have h2 := hp (depth mandel (w + h + 1) m w h t - 1)
      have h3 : max w h ≤ w + h := max_le (Nat.le_add_right w h) (Nat.le_add_left h w)
      omega
  · intro fuel hf
    exact depth_stable mandel m fuel (w + h + 1) w h t hf (le_refl _)
  · intro n hwn hhn
    subst hwn hhn
    refine ⟨depth_square mandel m _ n t, ?_⟩
    intro hiw hjh fuel hf
    obtain ⟨m1, h1 | h1⟩ := hsafe fuel hf
    · exact ⟨m1, h1⟩
    · rcases worker_square mandel sched hs m.w m.h fuel n m t ⟨rfl, rfl⟩ hiw hjh with
        ⟨m2, h2, -⟩ | h2
      · exact ⟨m2, h2⟩
      · rw [h1] at h2
        exact absurd h2 (by simp)

/-- C9 (amended) at the block (0, 0) of size 32 × 32 on a 64 × 32 canvas. -/
theorem recursion_depth_bounded_witness :
    ((∀ l : List Task, (id l).Perm l) ∧ (0 : Nat) < (blank 64 32).w ∧
      (0 : Nat) < (blank 64 32).h) ∧
    (∃ m1, worker edgeMandel id (32 + 32 + 1) 32 32 (blank 64 32) ⟨0, 0⟩ = .returns m1) ∧
    16 * 4 ^ depth edgeMandel (32 + 32 + 1) (blank 64 32) 32 32 ⟨0, 0⟩ ≤ 32 * 32 :=
  ⟨⟨fun l => List.Perm.refl l, by decide, by decide⟩,
    ((recursion_depth_bounded edgeMandel id (fun l => List.Perm.refl l) (blank 64 32) 32 32
      ⟨0, 0⟩ (by decide) (by decide)).2.2.2.2 3 (by decide) (by decide)).2
      (by decide) (by decide) _
      (recursion_depth_bounded edgeMandel id (fun l => List.Perm.refl l) (blank 64 32) 32 32
        ⟨0, 0⟩ (by decide) (by decide)).2.1,
    ((recursion_depth_bounded edgeMandel id (fun l => List.Perm.refl l) (blank 64 32) 32 32
      ⟨0, 0⟩ (by decide) (by decide)).2.2.2.2 3 (by decide) (by decide)).1⟩

/-- C10. Index safety of the adaptive block scheduler, for block sizes
`BSX, BSY ≥ 1`, every canvas, evaluator and schedule: every job sent by
`nWorkersFillImg` or by `devide` starts inside the canvas; for such a job the
clipped limits are inside the canvas and `checkBlock` (corner samples and bulk
fill), `perPixel` with the clipped limits and `worker` with all its sub-jobs
make every store inside the canvas; so do all the jobs of `nWorkersFillImg`
together, and the run is never stopped by a fault.  With square blocks of side
`4 * 2^n` on a canvas whose sides are multiples of it, the run returns. -/
theorem index_safety (mandel : Nat → Nat → Int) (sched : List Task → List Task)
    (hs : ∀ l, (sched l).Perm l) (BSX BSY : Nat) (hBSX : 1 ≤ BSX) (hBSY : 1 ≤ BSY) (m : img) :
    (∀ t ∈ initialJobs m BSX BSY, t.i < m.w ∧ t.j < m.h) ∧
    (∀ w h t, ∀ s ∈ subjobs m (w / 2) (h / 2) t, s.i < m.w ∧ s.j < m.h) ∧
    (∀ w h t (m0 : img), m0.w = m.w → m0.h = m.h → t.i < m.w → t.j < m.h →
      limit t.i w m0.w < m.w ∧ limit t.j h m0.h < m.h ∧
      (∃ r, checkBlock mandel t m0 w h = .ok r) ∧
      (∃ m1, perPixel mandel m0 t.i (limit t.i w m0.w) t.j (limit t.j h m0.h) = .ok m1) ∧
      (∀ fuel, w + h + 1 ≤ fuel →
        ∃ m1, worker mandel sched fuel w h m0 t = .returns m1 ∨
          worker mandel sched fuel w h m0 t = .hangs m1)) ∧
    (∃ m1, pool (worker mandel sched (BSX + BSY + 1) BSX BSY)
          (sched (initialJobs m BSX BSY)) m = .returns m1 ∨
        pool (worker mandel sched (BSX + BSY + 1) BSX BSY)
          (sched (initialJobs m BSX BSY)) m = .hangs m1) ∧
    (∀ e, nWorkersFillImg mandel sched BSX BSY m ≠ .faults e) ∧
    (∀ n a b, BSX = 4 * 2 ^ n → BSY = 4 * 2 ^ n → m.w = a * BSX → m.h = b * BSY →
      ∃ m1, nWorkersFillImg mandel sched BSX BSY m = .returns m1) := by
  have hpool : ∃ m1, (pool (worker mandel sched (BSX + BSY + 1) BSX BSY)
          (sched (initialJobs m BSX BSY)) m = .returns m1 ∨
        pool (worker mandel sched (BSX + BSY + 1) BSX BSY)
          (sched (initialJobs m BSX BSY)) m = .hangs m1) ∧ (m1.w = m.w ∧ m1.h = m.h) :=
    pool_safe (fun m0 => m0.w = m.w ∧ m0.h = m.h)
      (worker mandel sched (BSX + BSY + 1) BSX BSY) (sched (initialJobs m BSX BSY))
      (fun m0 t ht h0 =>
        worker_same mandel sched hs m.w m.h _ _ _ m0 t (le_refl _) h0
          (mem_initialJobs _ _ _ _ ((hs _).mem_iff.1 ht)).1
          (mem_initialJobs _ _ _ _ ((hs _).mem_iff.1 ht)).2)
      m ⟨rfl, rfl⟩
  refine ⟨fun t ht => mem_initialJobs m BSX BSY t ht, ?_, ?_, ?_, ?_, ?_⟩
  · intro w h t s hsm
    have h1 := mem_subjobs _ _ _ _ _ hsm
    exact ⟨h1.1, h1.2.1⟩
  · intro w h t m0 hw0 hh0 hi hj
    have hlw : limit t.i w m0.w < m0.w := limit_lt _ _ _ (by omega)
    have hlh : limit t.j h m0.h < m0.h := limit_lt _ _ _ (by omega)
    refine ⟨by omega, by omega, ?_, ?_, ?_⟩
    · obtain ⟨m1, h1, -⟩ := checkBlock_same mandel t m0 w h (by omega) (by omega)
      exact ⟨_, h1⟩
    · obtain ⟨m1, h1, -⟩ := perPixel_same mandel m0 t.i (limit t.i w m0.w) t.j
        (limit t.j h m0.h) (le_of_lt hlw) (le_of_lt hlh)
      exact ⟨m1, h1⟩
    · intro fuel hf
      obtain ⟨m1, h1, -⟩ := worker_same mandel sched hs m.w m.h fuel w h m0 t hf
        ⟨hw0, hh0⟩ hi hj
      exact ⟨m1, h1⟩
  · obtain ⟨m1, h1, -⟩ := hpool
    exact ⟨m1, h1⟩
  · intro e
    have hne : ¬ (BSX * BSY = 0) := by
      intro h0
      rcases Nat.mul_eq_zero.1 h0 with h1 | h1 <;> omega
    unfold nWorkersFillImg
    rw [if_neg hne]
    split
    · simp
    · obtain ⟨m1, h1 | h1, -⟩ := hpool
      · rw [h1]
        simp only [join]
        split
        · simp
        · split <;> simp
      · rw [h1]
        simp only [join]
        split <;> simp
  · intro n a b hX hY hw hh
    subst hX
    rw [hY] at hh ⊢
    obtain ⟨m1, h1, -⟩ := nWorkersFillImg_returns mandel sched hs n a b m hw hh
    exact ⟨m1, h1⟩

/-- C10 on a 64 × 32 canvas with 32 × 32 blocks, the jobs taken in reverse
order. -/
theorem index_safety_witness :
    (∀ l : List Task, (List.reverse l).Perm l) ∧ 1 ≤ 32 ∧
    ∃ m1, nWorkersFillImg edgeMandel List.reverse 32 32 (blank 64 32) = .returns m1 :=
  ⟨fun l => List.reverse_perm l, by decide,
    (index_safety edgeMandel List.reverse (fun l => List.reverse_perm l) 32 32
      (by decide) (by decide) (blank 64 32)).2.2.2.2.2 3 2 1 (by decide) (by decide)
      (by decide) (by decide)⟩

end Mandelbrot
